import Mathlib

/-
  Verification development for the replaCy suggestion generation and
  selection engine.

  Shallow embedding of:
  - replacy/util.py          (equal_except_nth_place, eliminate_options)
  - replacy/__init__.py      (ReplaceMatcher.process_suggestions and the
                              per-template aggregation in get_callback)
  - replacy/ref_matcher.py   (RefMatcher.__call__ and helpers)
  - replacy/suggestion.py    (SuggestionGenerator.get_options,
                              get_item_max_count)
  - replacy/scorer.py        (KenLMScorer.__call__, sort_suggestions)
  - replacy/filter_0distance.py

  External collaborators (the spaCy token matcher, lemminflect, the KenLM
  model, regex substitution) are taken as parameters of the embedded
  functions: the theorems quantify over their behaviour unless a concrete
  value is needed for a counterexample.
-/

namespace Replacy

/-- One suggestion option as produced by suggestion.py: a text, an optional
repetition cap (max_count) and the id of the suggestion template it came
from. -/
structure Suggestion where
  text : String
  max_count : Option Nat
  id : Nat
deriving DecidableEq, Repr

/-- A candidate replacement: an ordered list of suggestions, one per slot. -/
abbrev Cand := List Suggestion

/-- The index loop of util.equal_except_nth_place: walks both lists in step,
position i is exempt from the text comparison when it equals n.  The Python
loop runs over range(len(list1)) after the length guard, so both lists have
the same length there; the mismatched-length cases are unreachable from
equal_except_nth_place and return false. -/
def textsAgreeExcept (n : Nat) : Nat → List Suggestion → List Suggestion → Bool
  | _, [], [] => true
  | i, a :: as, b :: bs =>
      (i == n || a.text == b.text) && textsAgreeExcept n (i + 1) as bs
  | _, _, _ => false

/-- util.equal_except_nth_place: two candidates are comparable only if both
are non-empty, their first suggestions carry the same template id, and they
have equal length; then all slot texts except index n must match. -/
def equal_except_nth_place (list1 list2 : List Suggestion) (n : Nat) : Bool :=
  match list1, list2 with
  | [], _ => false
  | _ :: _, [] => false
  | a :: as, b :: bs =>
    if a.id != b.id then false
    else if (a :: as).length != (b :: bs).length then false
    else textsAgreeExcept n 0 (a :: as) (b :: bs)

/-- One iteration of the loop in util.eliminate_options, for slot index i of
elem holding suggestion item: no cap means no constraint; cap 1 removes every
comparable candidate from rest; a larger cap removes them once the number of
already chosen comparable candidates has reached the cap. -/
def elimStep (elem : Cand) (chosen : List Cand) (i : Nat) (item : Suggestion)
    (rest : List Cand) : List Cand :=
  match item.max_count with
  | none => rest
  | some mc =>
    if mc == 1 then
      rest.filter (fun r => !equal_except_nth_place elem r i)
    else if mc ≤ chosen.countP (fun r => equal_except_nth_place elem r i) then
      rest.filter (fun r => !equal_except_nth_place elem r i)
    else rest

/-- The enumerate loop of util.eliminate_options over the indexed slots of
elem, threading rest through elimStep. -/
def elimGo (elem : Cand) (chosen : List Cand) :
    List (Nat × Suggestion) → List Cand → List Cand
  | [], rest => rest
  | (i, item) :: more, rest => elimGo elem chosen more (elimStep elem chosen i item rest)

/-- util.eliminate_options: use elem to eliminate from rest the candidates
that are over the max_count limits, given the already chosen candidates. -/
def eliminate_options (elem : Cand) (chosen rest : List Cand) : List Cand :=
  elimGo elem chosen elem.enum rest

/-- Modelled from the spec: the greedy selection driver of spec section 4.4
(OptionSelector.select) is not among the source files; only its elimination
helper util.eliminate_options is.  The loop keeps popping the first remaining
candidate, appends it to the chosen list, and then eliminates over-quota
near-duplicates from the remainder.  The fuel argument bounds the loop; the
entry point passes the input length, which always suffices because
eliminate_options only removes elements. -/
def selectGo : Nat → List Cand → List Cand → List Cand
  | _, chosen, [] => chosen
  | 0, chosen, _ :: _ => chosen
  | fuel + 1, chosen, c :: rest =>
      selectGo fuel (chosen ++ [c]) (eliminate_options c (chosen ++ [c]) rest)

/-- Modelled from the spec: entry point of the greedy max-count selection. -/
def select (candidates : List Cand) : List Cand :=
  selectGo candidates.length [] candidates

/-- Cartesian product of the per-slot option lists in the order produced by
itertools.product: the first slot varies slowest. -/
def pyProduct : List (List String) → List (List String)
  | [] => [[]]
  | l :: rest => l.flatMap (fun x => (pyProduct rest).map (fun c => x :: c))

/-- The seq(options).map(len).reduce(mul) step of process_suggestions: a
reduce over a nonempty sequence.  Python raises on an empty sequence, so the
empty case here is never exercised by the theorems (they assume at least one
slot). -/
def pyReduceMul : List Nat → Nat
  | [] => 1
  | x :: xs => xs.foldl (· * ·) x

/-- ReplaceMatcher.process_suggestions, from the point where the per-item
option lists have been resolved (the options local): compute the product of
the option counts; above the cap, warn and fall back to empty suggestions;
otherwise join every combination with single spaces.  The Bool records
whether the warning was emitted. -/
def process_suggestions (options : List (List String)) (max_suggestions_count : Nat) :
    List String × Bool :=
  let suggestions_count := pyReduceMul (options.map List.length)
  if suggestions_count > max_suggestions_count then
    ([], true)
  else
    ((pyProduct options).map (fun o => String.intercalate " " o), false)

/-- The aggregation in ReplaceMatcher.get_callback: the suggestions of a span
are the concatenation of process_suggestions over the pre-suggestion
templates of the matched rule. -/
def processTemplates (templates : List (List (List String))) (cap : Nat) : List String :=
  templates.flatMap (fun t => (process_suggestions t cap).1)

/-- Slot-cap homogeneity: any two comparable candidates carry the same
max_count at the compared slot.  Candidates expanded from suggestion
templates satisfy this, because comparable candidates share a template and
all options of one template slot carry that slots max_count. -/
def mcHomogeneous (l : List Cand) : Bool :=
  l.all fun c₁ => l.all fun c₂ =>
    (List.range c₁.length).all fun i =>
      !equal_except_nth_place c₁ c₂ i ||
        match c₁[i]?, c₂[i]? with
        | some s₁, some s₂ => s₁.max_count == s₂.max_count
        | _, _ => true

/-- The loop invariant of the greedy selection: for every present candidate
and every capped slot, the chosen list holds at most the cap many comparable
candidates, and once the cap is reached no comparable candidate remains in
the rest. -/
def SelInv (chosen rest : List Cand) : Prop :=
  ∀ cd ∈ chosen ++ rest, ∀ (i : Nat) (s : Suggestion) (k : Nat),
    cd[i]? = some s → s.max_count = some k →
    1 ≤ k →
    chosen.countP (fun r => equal_except_nth_place cd r i) ≤ k ∧
    (chosen.countP (fun r => equal_except_nth_place cd r i) = k →
      rest.countP (fun r => equal_except_nth_place cd r i) = 0)

/-- After the greedy pass, every elimination an already chosen candidate
would trigger finds no comparable candidate after it: each chosen candidate
already removed its over-quota duplicates from everything downstream. -/
def PastNoKill (chosen rest : List Cand) : Prop :=
  ∀ (c₁ : List Cand) (cd : Cand) (c₂ : List Cand), chosen = c₁ ++ cd :: c₂ →
    ∀ p ∈ cd.enum, ∀ mc : Nat, (p.2 : Suggestion).max_count = some mc →
      (mc = 1 ∨ mc ≤ (c₁ ++ [cd]).countP
        (fun x => equal_except_nth_place cd x p.1)) →
      ∀ x ∈ c₂ ++ rest, equal_except_nth_place cd x p.1 = false


/-- One pattern slot of ref_matcher.py: the optional OP arity operator (one
of ?, *, +, !), whether the dict carries a TEMPLATE_ID key, and whether it
carries any further matching keys (TEXT, POS, ...), which decides the
len(p) == 1 checks.  The token-matching content itself is consumed only by
the external spaCy matcher, which the embedding abstracts. -/
structure RSlot where
  op : Option String
  hasTemplateId : Bool
  hasOtherProps : Bool
deriving DecidableEq, Repr

/-- RefMatcher.is_negative. -/
def RSlot.is_negative (p : RSlot) : Bool := p.op == some "!"

/-- RefMatcher.is_droppable. -/
def RSlot.is_droppable (p : RSlot) : Bool := p.op == some "*" || p.op == some "?"

/-- RefMatcher.is_multitoken. -/
def RSlot.is_multitoken (p : RSlot) : Bool := p.op == some "*" || p.op == some "+"

/-- The in-place slot rewrite of the matched-op branch of
remove_skipped_ops: a + slot whose dict held only OP becomes a never
matching negated text slot, a + slot with other props drops OP, and a *
slot becomes +; other slots are unchanged. -/
def requireOp (p : RSlot) : RSlot :=
  match p.op with
  | some o =>
      if o = "+" then
        if !p.hasOtherProps then { p with op := some "!", hasOtherProps := true }
        else { p with op := none }
      else if o = "*" then { p with op := some "+" }
      else p
  | none => p

/-- RefMatcher.remove_skipped_ops, after its matcher run: max_matches
abstracts the droppable-slot indices whose required variant still matched
the whole span.  A slot with an OP that is neither in max_matches nor
negative is recorded as skipped and dropped; the others are appended with
requireOp applied when the OP key is present. -/
def remove_skipped_ops (pattern : List RSlot) (max_matches : List Nat) :
    List RSlot × List Nat :=
  pattern.enum.foldl
    (fun acc pi =>
      if pi.2.op.isSome then
        if ¬ (pi.1 ∈ max_matches) ∧ ¬ (pi.2.is_negative = true) then
          (acc.1, acc.2 ++ [pi.1])
        else
          (acc.1 ++ [requireOp pi.2], acc.2)
      else (acc.1 ++ [pi.2], acc.2))
    ([], [])

/-- RefMatcher.insert_empty_idx: shift every key at or above idx up by one
and add idx mapping to the empty list. -/
def insert_empty_idx (pattern_ref : List (Nat × List Nat)) (idx : Nat) :
    List (Nat × List Nat) :=
  (pattern_ref.map (fun pv => if pv.1 ≥ idx then (pv.1 + 1, pv.2) else pv))
    ++ [(idx, [])]

/-- RefMatcher.shift_pattern_ref. -/
def shift_pattern_ref (pattern_ref : List (Nat × List Nat))
    (skipped_idx : List Nat) : List (Nat × List Nat) :=
  skipped_idx.foldl insert_empty_idx pattern_ref

/-- Python max over a nonempty list with a key function: returns the first
element attaining the maximal key (later elements replace the current best
only when strictly greater). -/
def pyMaxBy (f : Nat × Nat × Nat → Nat) :
    List (Nat × Nat × Nat) → Option (Nat × Nat × Nat)
  | [] => none
  | x :: xs => some (xs.foldl (fun b y => if f y > f b then y else b) x)

/-- The dict update of the case III loop: append span index i to the entry
of key k, or create the entry when the key is new. -/
def dictAppend (d : List (Nat × List Nat)) (k : Nat) (i : Nat) :
    List (Nat × List Nat) :=
  if d.any (fun pv => pv.1 == k) then
    d.map (fun pv => if pv.1 == k then (pv.1, pv.2 ++ [i]) else pv)
  else d ++ [(k, [i])]

/-- The case III loop of RefMatcher.__call__: for each cropped span start i,
matchesFor i abstracts the spaCy matches of all cropped patterns against
that cropped span, as (pattern id, match start, match end) triples in the
order the matcher yields them; the loop takes per start the first maximal
length match and assigns i to that pattern id. -/
def caseIII_ref (spanLen : Nat) (matchesFor : Nat → List (Nat × Nat × Nat)) :
    List (Nat × List Nat) :=
  (List.range spanLen).foldl
    (fun d i =>
      match pyMaxBy (fun m => m.2.2 - m.2.1) (matchesFor i) with
      | none => d
      | some m => dictAppend d m.1 i)
    []

/-- RefMatcher.__call__: deepcopy with TEMPLATE_ID removed, then case I
(identity when lengths match and no OP), case II (identity over the reduced
pattern, shifted by the skipped slots) and case III (re-match cropped spans
against cropped patterns, then shift).  The external matcher results enter
through max_matches (for remove_skipped_ops) and matchesFor (for case III);
the span enters through its length only. -/
def refCall (spanLen : Nat) (orig_pattern : List RSlot) (max_matches : List Nat)
    (matchesFor : Nat → List (Nat × Nat × Nat)) : List (Nat × List Nat) :=
  let pattern := orig_pattern.map (fun p => { p with hasTemplateId := false })
  if spanLen = pattern.length ∧ pattern.all (fun p => !p.op.isSome) then
    (List.range pattern.length).map (fun k => (k, [k]))
  else
    let res := remove_skipped_ops pattern max_matches
    if spanLen = res.1.length ∧ res.1.all (fun p => !(p.is_multitoken)) then
      shift_pattern_ref ((List.range res.1.length).map (fun k => (k, [k]))) res.2
    else
      shift_pattern_ref (caseIII_ref spanLen matchesFor) res.2

/-- Pairwise disjointness of a pattern-ref mapping: distinct entries carry
distinct pattern-slot keys and their span-token index lists share no
element. -/
def RefDisjoint (d : List (Nat × List Nat)) : Prop :=
  d.Pairwise (fun a b => a.1 ≠ b.1 ∧ ∀ x ∈ a.2, x ∉ b.2)

/-- All span-token indices recorded in the mapping are below n. -/
def RefBound (d : List (Nat × List Nat)) (n : Nat) : Prop :=
  ∀ pv ∈ d, ∀ x ∈ pv.2, x < n

/-- The matcher results realizing the monotonicity counterexample.  Pattern:
slot 0 matches exactly the token a (no OP), slot 1 matches a or b with
OP *; span: the four tokens a b a a (a genuine full match of the pattern).
The slot-1-required variant [a, (a or b)+] matches the whole span, so
max_matches is [1] and nothing is skipped; case III then rematches the
cropped patterns P0 = [a, (a or b)+] and P1 = [(a or b)+] against the
cropped spans a b a a, b a a, a a, a.  Each list below is the complete set
of matches of both cropped patterns on that cropped span, emitted the way
the matcher completes them: by match end, then by state creation (start
position, then pattern addition order), so of two matches with the same
start and end the earlier-added pattern comes first.  On b a a the longest
match (1, 0, 3) wins strictly, sending span token 1 to slot 1, while on the
later cropped span a a the longest match is (0, 0, 2), sending span token 2
to slot 0. -/
def cexMatches : Nat → List (Nat × Nat × Nat)
  | 0 => [(1, 0, 1),
          (0, 0, 2), (1, 0, 2), (1, 1, 2),
          (0, 0, 3), (1, 0, 3), (1, 1, 3), (1, 2, 3),
          (0, 0, 4), (1, 0, 4), (1, 1, 4), (0, 2, 4), (1, 2, 4), (1, 3, 4)]
  | 1 => [(1, 0, 1),
          (1, 0, 2), (1, 1, 2),
          (1, 0, 3), (0, 1, 3), (1, 1, 3), (1, 2, 3)]
  | 2 => [(1, 0, 1),
          (0, 0, 2), (1, 0, 2), (1, 1, 2)]
  | 3 => [(1, 0, 1)]
  | _ => []

/-- A suggestion template item (one slot), with the fields consumed by
SuggestionGenerator.get_options / get_item_max_count: TEXT is either a
plain string or an IN list; PATTERN_REF is a signed index into the pattern;
REGEX and SUFFIX post-process a copied text; INFLECTION and MAX_COUNT feed
the cap heuristics.  A field is none when the key is absent. -/
structure SuggItem where
  TEXT : Option (Sum String (List String))
  PATTERN_REF : Option Int
  REGEX : Option String
  SUFFIX : Option String
  INFLECTION : Option String
  MAX_COUNT : Option Nat
deriving DecidableEq, Repr

/-- Python dict lookup pattern_ref[ref] for an int key against the Nat-keyed
mapping: none models the KeyError. -/
def pyDictLookup (pattern_ref : List (Nat × List Nat)) (ref : Int) :
    Option (List Nat) :=
  (pattern_ref.find? (fun pv => (pv.1 : Int) == ref)).map (fun pv => pv.2)

/-- Python min over a nonempty list (the empty case is unreachable behind
the len check of get_options). -/
def pyMinNat : List Nat → Nat
  | [] => 0
  | x :: xs => xs.foldl Nat.min x

/-- Python max over a nonempty list. -/
def pyMaxNat : List Nat → Nat
  | [] => 0
  | x :: xs => xs.foldl Nat.max x

/-- SuggestionGenerator.get_options.  The document is abstracted by
tokenText (doc[i].text, over Int because Python indexes can go negative and
wrap) and sliceText a b (doc[a : b + 1].text); applyRegex abstracts the
re.sub call built from the referenced pattern slots own regex.  Returns the
options and whether the ref-matcher-failed warning fired.  For PATTERN_REF:
a non-negative ref is looked up directly, a negative ref is first rebound to
len(pattern_ref) + ref; a missing key falls back to doc[start + ref] for the
non-negative case and doc[end + ref] with the rebound ref for the negative
case; a present key with a non-empty token list yields the contiguous slice
from start + min to start + max of the token indices, an empty token list
yields no options. -/
def get_options (item : SuggItem) (tokenText : Int → String)
    (sliceText : Nat → Nat → String) (applyRegex : String → String)
    (start e : Nat) (pattern_ref : List (Nat × List Nat)) :
    List String × Bool :=
  match item.TEXT with
  | some (Sum.inl s) => ([s], false)
  | some (Sum.inr l) => (l, false)
  | none =>
    match item.PATTERN_REF with
    | none => ([], false)
    | some ref0 =>
      let res : Option String × Bool :=
        if ref0 ≥ 0 then
          match pyDictLookup pattern_ref ref0 with
          | some refd_tokens =>
              if refd_tokens.length ≠ 0 then
                (some (sliceText (start + pyMinNat refd_tokens)
                  (start + pyMaxNat refd_tokens)), false)
              else (none, false)
          | none => (some (tokenText ((start : Int) + ref0)), true)
        else
          let ref : Int := (pattern_ref.length : Int) + ref0
          match pyDictLookup pattern_ref ref with
          | some refd_tokens =>
              if refd_tokens.length ≠ 0 then
                (some (sliceText (start + pyMinNat refd_tokens)
                  (start + pyMaxNat refd_tokens)), false)
              else (none, false)
          | none => (some (tokenText ((e : Int) + ref)), true)
      match res.1 with
      | some t =>
          if t = "" then ([], res.2)
          else
            let t1 := if item.REGEX.isSome then applyRegex t else t
            let t2 := match item.SUFFIX with
              | some suf => t1 ++ suf
              | none => t1
            ([t2], res.2)
      | none => ([], res.2)

/-- Inflector.tag_to_pos. -/
def tag_to_pos (tag : String) : String :=
  if tag ∈ ["JJ", "JJR", "JJS"] then "ADJ"
  else if tag ∈ ["RB", "RBR", "RBS"] then "ADV"
  else if tag ∈ ["NN", "NNS"] then "NOUN"
  else if tag ∈ ["NNP", "NNPS"] then "PROPN"
  else if tag ∈ ["VB", "VBD", "VBG", "VBN", "VBP", "VBZ", "MD"] then "VERB"
  else tag

/-- Inflector.get_inflection_type (the unsupported case warns and falls back
to all). -/
def get_inflection_type (value : String) : String :=
  if value ∈ ["ADJ", "ADV", "NOUN", "PROPN", "VERB", "AUX"] then "pos"
  else if tag_to_pos value ∈ ["ADJ", "ADV", "NOUN", "PROPN", "VERB", "AUX"]
    then "tag"
  else "all"

/-- ASCII model of Python str.isalpha: non-empty and every character a
letter. -/
def pyIsAlpha (s : String) : Bool :=
  s.length ≠ 0 && s.toList.all Char.isAlpha

/-- Python str.split() restricted to spaces (the only whitespace the engine
produces when joining options): the maximal non-space runs of the string.
Implemented as a structural character fold so that concrete evaluation
reduces. -/
def pyWords (s : String) : List String :=
  ((s.toList.foldr
      (fun c acc =>
        if c = ' ' then [] :: acc
        else (c :: acc.headD []) :: acc.tail)
      [[]]).filter (fun w => w ≠ [])).map (fun w => String.mk w)

/-- Word count of Python str.split(). -/
def pyWordCount (s : String) : Nat :=
  (pyWords s).length

/-- The lemma-overlap loop of heuristic E in get_item_max_count: walk the
options accumulating their lemma sets; report true as soon as an options
lemmas intersect those already seen. -/
def sharedLemmaLoop (getLemmas : String → List String) :
    List String → List String → Bool
  | _, [] => false
  | lemmas, o :: rest =>
      if (lemmas.inter (getLemmas o)).length ≠ 0 then true
      else sharedLemmaLoop getLemmas (lemmas.union (getLemmas o)) rest

/-- SuggestionGenerator.get_item_max_count.  A hard MAX_COUNT that is truthy
(present and nonzero) wins; otherwise the soft cap is min(default cap, item
count) when the default cap is truthy, else the item count; with
filter_suggestions the cap drops to 1 for empty options, non-alphabetic or
multi-word options, non-tag inflection, and (for several options) shared
lemmas, articles, or the two hardcoded irregular plural pairs.  getLemmas
abstracts Inflector.get_lemmas (lemminflect). -/
def get_item_max_count (filter_suggestions : Bool)
    (default_max_count : Option Nat) (getLemmas : String → List String)
    (item : SuggItem) (item_options : List String) : Nat :=
  let hard := item.MAX_COUNT.getD 0
  if hard ≠ 0 then hard
  else
    let max_count :=
      match default_max_count with
      | some d => if d ≠ 0 then min d item_options.length
                  else item_options.length
      | none => item_options.length
    if !filter_suggestions then max_count
    else if item_options.length = 0 then 1
    else if !(item_options.all pyIsAlpha) then 1
    else if pyMaxNat (item_options.map pyWordCount) > 1 then 1
    else if (match item.INFLECTION with
             | some v => get_inflection_type v ≠ "tag"
             | none => false : Bool) then 1
    else if 1 < item_options.length ∧
        sharedLemmaLoop getLemmas [] item_options = true then 1
    else if 1 < item_options.length ∧
        (["a", "an", "the"].any (fun a => decide (a ∈ item_options))) = true
      then 1
    else if 1 < item_options.length ∧
        ((["person", "people"].all (fun a => decide (a ∈ item_options))) = true ∨
         (["ox", "oxen"].all (fun a => decide (a ∈ item_options))) = true)
      then 1
    else max_count

/-- KenLMScorer.__call__: preprocess the segment, and when the preprocessed
text has fewer than 2 words, warn and return float(-inf), modelled as the
bottom of WithBot; otherwise the KenLM log-score and its perplexity
transform, abstracted into finiteScore (the embedding only uses that the
result is a finite rational).  The Bool records the warning. -/
def kenlm_call (finiteScore : String → ℚ) (preprocess : String → String)
    (segment : String) : WithBot ℚ × Bool :=
  let text := preprocess segment
  if (pyWords text).length < 2 then ((⊥ : WithBot ℚ), true)
  else (((finiteScore text : ℚ) : WithBot ℚ), false)

/-- Stable insertion into an ascending-sorted list: the new element goes
after every element whose score is less than or equal, which preserves the
original order of ties exactly as Python sorted does. -/
def insertByScore (le : String → String → Bool) (x : String) :
    List String → List String
  | [] => [x]
  | b :: l => if le b x then b :: insertByScore le x l else x :: b :: l

/-- KenLMScorer.sort_suggestions for one span: when more than one suggestion
is attached, sort them ascending by score; Python sorted is a stable
ascending sort, modelled by left-to-right stable insertion. -/
def sort_suggestions (score : String → WithBot ℚ)
    (suggestions : List String) : List String :=
  if 1 < suggestions.length then
    suggestions.foldl
      (fun acc x => insertByScore (fun a b => decide (score a ≤ score b)) x acc)
      []
  else suggestions

/-- A span as consumed by filter_0distance: its own surface text
(doc[span.start : span.end].text) and its attached suggestion strings. -/
structure ESpan where
  spanText : String
  suggestions : List String
deriving DecidableEq, Repr

/-- filter_0distance: per span with a non-empty suggestion list, drop every
suggestion equal to the spans own text, keep the span only if some
suggestion survives; spans with an empty suggestion list pass through
unchanged. -/
def filter_0distance : List ESpan → List ESpan
  | [] => []
  | s :: rest =>
      if s.suggestions.length ≠ 0 then
        let sugg := s.suggestions.filter (fun x => !(s.spanText == x))
        if sugg.length ≠ 0 then
          { s with suggestions := sugg } :: filter_0distance rest
        else filter_0distance rest
      else s :: filter_0distance rest

end Replacy

namespace Replacy

theorem pyProduct_length (options : List (List String)) :
    (pyProduct options).length = (options.map List.length).prod := by
  induction options with
  | nil => simp [pyProduct]
  | cons l rest ih =>
      have h : (pyProduct (l :: rest)).length
          = (l.map (fun _ => (pyProduct rest).length)).sum := by
        simp [pyProduct, List.length_flatMap, Function.comp_def]
      rw [h, List.map_const', List.sum_replicate, smul_eq_mul, ih,
        List.map_cons, List.prod_cons]

theorem pyReduceMul_eq_prod (x : Nat) (xs : List Nat) :
    pyReduceMul (x :: xs) = (x :: xs).prod := by
  simp [pyReduceMul, List.prod_cons]
  induction xs generalizing x with
  | nil => simp
  | cons y ys ih =>
      simp [List.foldl_cons, ih, List.prod_cons]
      ring

theorem pyProduct_eq_nil_of_mem_nil (options : List (List String))
    (h : [] ∈ options) : pyProduct options = [] := by
  induction options with
  | nil => cases h
  | cons l rest ih =>
      cases h with
      | head => simp [pyProduct]
      | tail _ h =>
          have : pyProduct rest = [] := ih h
          simp [pyProduct, this]

theorem process_suggestions_eq (options : List (List String)) (cap : Nat) :
    process_suggestions options cap =
      if pyReduceMul (options.map List.length) > cap then ([], true)
      else ((pyProduct options).map (fun o => String.intercalate " " o), false) :=
  rfl

/-- C1: for every suggestion template with at least one slot, letting count be
the product of the per-slot option-list lengths: if count exceeds the cap,
process_suggestions emits the warning and returns an empty candidate list;
otherwise it returns the full Cartesian product of the slot option lists in
input slot order (joined with single spaces), so the returned list has length
exactly count; and the returned list is never longer than the cap. -/
theorem C1_process_suggestions_bounded (options : List (List String))
    (cap : Nat) (hne : options ≠ []) :
    (pyReduceMul (options.map List.length) > cap →
        process_suggestions options cap = ([], true)) ∧
    (pyReduceMul (options.map List.length) ≤ cap →
        process_suggestions options cap
          = ((pyProduct options).map (fun o => String.intercalate " " o), false) ∧
        (process_suggestions options cap).1.length
          = pyReduceMul (options.map List.length)) ∧
    (process_suggestions options cap).1.length ≤ cap := by
  obtain ⟨l, rest, rfl⟩ : ∃ l rest, options = l :: rest := by
    cases options with
    | nil => exact absurd rfl hne
    | cons l rest => exact ⟨l, rest, rfl⟩
  have hred : pyReduceMul ((l :: rest).map List.length)
      = ((l :: rest).map List.length).prod := by
    rw [List.map_cons, pyReduceMul_eq_prod]
  have hlen : ((pyProduct (l :: rest)).map
      (fun o => String.intercalate " " o)).length
      = pyReduceMul ((l :: rest).map List.length) := by
    rw [List.length_map, pyProduct_length, hred]
  rw [process_suggestions_eq]
  by_cases hcap : pyReduceMul ((l :: rest).map List.length) > cap
  · rw [if_pos hcap]
    exact ⟨fun _ => rfl, fun hle => absurd hcap (not_lt.mpr hle),
      Nat.zero_le cap⟩
  · rw [if_neg hcap]
    refine ⟨fun hgt => absurd hgt hcap, fun _ => ⟨rfl, hlen⟩, ?_⟩
    rw [hlen]
    exact not_lt.mp hcap

/-- Witness for C1: a two-slot template below the cap expands to its full
Cartesian product. -/
theorem C1_witness :
    process_suggestions [["a"], ["b", "c"]] 1000
      = ((pyProduct [["a"], ["b", "c"]]).map (fun o => String.intercalate " " o),
          false) :=
  ((C1_process_suggestions_bounded [["a"], ["b", "c"]] 1000 (by decide)).2.1
    (by decide)).1

/-- C6: a suggestion template with one slot resolving to an empty option list
contributes an empty candidate list, and only that template: aggregating the
per-template results over the remaining templates is unchanged. -/
theorem C6_empty_slot_only_that_template
    (pre post : List (List (List String))) (t : List (List String)) (cap : Nat)
    (hempty : [] ∈ t) :
    (process_suggestions t cap).1 = [] ∧
    processTemplates (pre ++ t :: post) cap
      = processTemplates pre cap ++ processTemplates post cap := by
  have hprodnil : pyProduct t = [] := pyProduct_eq_nil_of_mem_nil t hempty
  have hmain : (process_suggestions t cap).1 = [] := by
    rw [process_suggestions_eq]
    by_cases hcap : pyReduceMul (t.map List.length) > cap
    · rw [if_pos hcap]
    · rw [if_neg hcap]
      simp [hprodnil]
  refine ⟨hmain, ?_⟩
  simp [processTemplates, List.flatMap_append, List.flatMap_cons, hmain]

theorem beqComm {α : Type} [BEq α] [LawfulBEq α] (a b : α) : (a == b) = (b == a) := by
  by_cases h : a = b
  · subst h; rfl
  · rw [beq_eq_false_iff_ne.mpr h, beq_eq_false_iff_ne.mpr (Ne.symm h)]

theorem textsAgreeExcept_symm (n : Nat) :
    ∀ (as bs : List Suggestion) (i : Nat),
      textsAgreeExcept n i as bs = textsAgreeExcept n i bs as := by
  intro as
  induction as with
  | nil => intro bs i; cases bs <;> rfl
  | cons a as ih =>
      intro bs i
      cases bs with
      | nil => rfl
      | cons b bs => simp [textsAgreeExcept, ih, beqComm a.text b.text]

theorem textsAgreeExcept_trans (n : Nat) :
    ∀ (as bs cs : List Suggestion) (i : Nat),
      textsAgreeExcept n i as bs = true → textsAgreeExcept n i bs cs = true →
      textsAgreeExcept n i as cs = true := by
  intro as
  induction as with
  | nil =>
      intro bs cs i h1 h2
      cases bs <;> cases cs <;> simp_all [textsAgreeExcept]
  | cons a as ih =>
      intro bs cs i h1 h2
      cases bs with
      | nil => simp [textsAgreeExcept] at h1
      | cons b bs =>
          cases cs with
          | nil => simp [textsAgreeExcept] at h2
          | cons c cs =>
              simp only [textsAgreeExcept, Bool.and_eq_true, Bool.or_eq_true,
                beq_iff_eq] at h1 h2 ⊢
              refine ⟨?_, ih bs cs (i + 1) h1.2 h2.2⟩
              rcases h1.1 with h | h
              · exact Or.inl h
              · rcases h2.1 with h' | h'
                · exact Or.inl h'
                · exact Or.inr (h.trans h')

theorem eqex_cons_iff (x y : Suggestion) (as bs : List Suggestion) (n : Nat) :
    equal_except_nth_place (x :: as) (y :: bs) n = true ↔
      x.id = y.id ∧ as.length = bs.length ∧
        textsAgreeExcept n 0 (x :: as) (y :: bs) = true := by
  simp only [equal_except_nth_place]
  by_cases hid : x.id = y.id
  · by_cases hlen : as.length = bs.length
    · have h1 : (x.id != y.id) = false := by simp [hid]
      have h2 : ((x :: as).length != (y :: bs).length) = false := by simp [hlen]
      simp [h1, h2, hid, hlen]
    · have h2 : ((x :: as).length != (y :: bs).length) = true := by simp [hlen]
      have h1 : (x.id != y.id) = false := by simp [hid]
      simp [h1, h2, hlen]
  · have h1 : (x.id != y.id) = true := by simp [hid]
    simp [h1, hid]

theorem eqex_symm (a b : Cand) (n : Nat) :
    equal_except_nth_place a b n = equal_except_nth_place b a n := by
  cases a with
  | nil => cases b <;> rfl
  | cons x as =>
      cases b with
      | nil => rfl
      | cons y bs =>
          rw [Bool.eq_iff_iff, eqex_cons_iff, eqex_cons_iff]
          rw [textsAgreeExcept_symm]
          constructor
          · rintro ⟨h1, h2, h3⟩; exact ⟨h1.symm, h2.symm, h3⟩
          · rintro ⟨h1, h2, h3⟩; exact ⟨h1.symm, h2.symm, h3⟩

theorem eqex_trans {a b c : Cand} {n : Nat}
    (h1 : equal_except_nth_place a b n = true)
    (h2 : equal_except_nth_place b c n = true) :
    equal_except_nth_place a c n = true := by
  cases a with
  | nil => simp [equal_except_nth_place] at h1
  | cons x as =>
      cases b with
      | nil => simp [equal_except_nth_place] at h1
      | cons y bs =>
          cases c with
          | nil => simp [equal_except_nth_place] at h2
          | cons z cs =>
              rw [eqex_cons_iff] at h1 h2 ⊢
              exact ⟨h1.1.trans h2.1, h1.2.1.trans h2.2.1,
                textsAgreeExcept_trans n _ _ _ 0 h1.2.2 h2.2.2⟩

theorem eqex_congr {c c₀ : Cand} {i : Nat}
    (h : equal_except_nth_place c c₀ i = true) (r : Cand) :
    equal_except_nth_place c₀ r i = equal_except_nth_place c r i := by
  have h0 : equal_except_nth_place c₀ c i = true := by
    rw [eqex_symm]; exact h
  by_cases hr : equal_except_nth_place c₀ r i = true
  · rw [hr, eq_comm]
    exact eqex_trans h hr
  · by_cases hr2 : equal_except_nth_place c r i = true
    · exact absurd (eqex_trans h0 hr2) hr
    · rw [Bool.not_eq_true] at hr hr2
      rw [hr, hr2]

theorem eqex_length {a b : Cand} {n : Nat}
    (h : equal_except_nth_place a b n = true) : a.length = b.length := by
  cases a with
  | nil => simp [equal_except_nth_place] at h
  | cons x as =>
      cases b with
      | nil => simp [equal_except_nth_place] at h
      | cons y bs =>
          rw [eqex_cons_iff] at h
          simp [h.2.1]

theorem elimStep_sublist (elem : Cand) (chosen : List Cand) (i : Nat)
    (item : Suggestion) (rest : List Cand) :
    (elimStep elem chosen i item rest).Sublist rest := by
  unfold elimStep
  split
  · exact List.Sublist.refl rest
  · split
    · exact List.filter_sublist rest
    · split
      · exact List.filter_sublist rest
      · exact List.Sublist.refl rest

theorem elimGo_sublist (elem : Cand) (chosen : List Cand) :
    ∀ (ps : List (Nat × Suggestion)) (rest : List Cand),
      (elimGo elem chosen ps rest).Sublist rest := by
  intro ps
  induction ps with
  | nil => intro rest; exact List.Sublist.refl rest
  | cons p more ih =>
      intro rest
      obtain ⟨i, item⟩ := p
      exact (ih _).trans (elimStep_sublist elem chosen i item rest)

theorem eliminate_options_sublist (elem : Cand) (chosen rest : List Cand) :
    (eliminate_options elem chosen rest).Sublist rest :=
  elimGo_sublist elem chosen elem.enum rest

theorem elimStep_kill (elem : Cand) (chosen : List Cand) (i : Nat)
    (item : Suggestion) (rest : List Cand) (mc : Nat)
    (hmc : item.max_count = some mc)
    (hkill : mc = 1 ∨ mc ≤ chosen.countP (fun x => equal_except_nth_place elem x i)) :
    elimStep elem chosen i item rest
      = rest.filter (fun r => !equal_except_nth_place elem r i) := by
  unfold elimStep
  rw [hmc]
  rcases hkill with h | h
  · subst h; simp
  · by_cases h1 : (mc == 1) = true
    · simp [h1]
    · have h1f : (mc == 1) = false := by
        revert h1; cases (mc == 1) <;> simp
      simp only [h1f, Bool.false_eq_true, if_false, if_pos h]

theorem elimGo_kill (elem : Cand) (chosen : List Cand) (i : Nat)
    (item : Suggestion) (mc : Nat) (hmc : item.max_count = some mc)
    (hkill : mc = 1 ∨ mc ≤ chosen.countP (fun x => equal_except_nth_place elem x i)) :
    ∀ (ps : List (Nat × Suggestion)) (rest : List Cand), (i, item) ∈ ps →
      ∀ x ∈ elimGo elem chosen ps rest,
        equal_except_nth_place elem x i = false := by
  intro ps
  induction ps with
  | nil => intro rest hmem; cases hmem
  | cons p more ih =>
      intro rest hmem x hx
      rcases List.mem_cons.mp hmem with heq | htail
      · obtain ⟨i', item'⟩ := p
        cases heq
        rw [show elimGo elem chosen ((i, item) :: more) rest
            = elimGo elem chosen more (elimStep elem chosen i item rest) from rfl,
          elimStep_kill elem chosen i item rest mc hmc hkill] at hx
        have hx' : x ∈ rest.filter (fun r => !equal_except_nth_place elem r i) :=
          (elimGo_sublist elem chosen more _).subset hx
        have := (List.mem_filter.mp hx').2
        revert this
        cases equal_except_nth_place elem x i <;> simp
      · exact ih _ htail x hx

theorem mcHomogeneous_spec {l : List Cand} (h : mcHomogeneous l = true)
    {c₁ c₂ : Cand} (h₁ : c₁ ∈ l) (h₂ : c₂ ∈ l) {i : Nat}
    (heq : equal_except_nth_place c₁ c₂ i = true)
    {s₁ s₂ : Suggestion} (hs₁ : c₁[i]? = some s₁) (hs₂ : c₂[i]? = some s₂) :
    s₁.max_count = s₂.max_count := by
  have hi : i < c₁.length := (List.getElem?_eq_some.mp hs₁).1
  rw [mcHomogeneous, List.all_eq_true] at h
  have h1 := h c₁ h₁
  rw [List.all_eq_true] at h1
  have h2 := h1 c₂ h₂
  rw [List.all_eq_true] at h2
  have h3 := h2 i (List.mem_range.mpr hi)
  rw [Bool.or_eq_true] at h3
  rcases h3 with h3 | h3
  · rw [heq] at h3
    simp at h3
  · rw [hs₁, hs₂] at h3
    exact beq_iff_eq.mp h3

theorem mcHomogeneous_mono {l₁ l₂ : List Cand} (hsub : l₁ ⊆ l₂)
    (h : mcHomogeneous l₂ = true) : mcHomogeneous l₁ = true := by
  rw [mcHomogeneous, List.all_eq_true] at h ⊢
  intro c₁ h₁
  rw [List.all_eq_true]
  intro c₂ h₂
  have h1 := h c₁ (hsub h₁)
  rw [List.all_eq_true] at h1
  exact h1 c₂ (hsub h₂)

theorem selectGo_cap :
    ∀ (fuel : Nat) (chosen rest : List Cand), rest.length ≤ fuel →
      mcHomogeneous (chosen ++ rest) = true → SelInv chosen rest →
      ∀ cd ∈ selectGo fuel chosen rest, ∀ (i : Nat) (s : Suggestion) (k : Nat),
        cd[i]? = some s →
        s.max_count = some k → 1 ≤ k →
        (selectGo fuel chosen rest).countP
          (fun r => equal_except_nth_place cd r i) ≤ k := by
  intro fuel
  induction fuel with
  | zero =>
      intro chosen rest hlen hhom hinv cd hc i s k hs hk hk1
      have hrest : rest = [] := List.length_eq_zero.mp (Nat.le_zero.mp hlen)
      subst hrest
      exact (hinv cd (by simpa using hc) i s k hs hk hk1).1
  | succ fuel ih =>
      intro chosen rest hlen hhom hinv cd hc i s k hs hk hk1
      cases rest with
      | nil => exact (hinv cd (by simpa using hc) i s k hs hk hk1).1
      | cons c₀ rest' =>
          have hstep : selectGo (fuel + 1) chosen (c₀ :: rest')
              = selectGo fuel (chosen ++ [c₀])
                  (eliminate_options c₀ (chosen ++ [c₀]) rest') := rfl
          have hsub : (eliminate_options c₀ (chosen ++ [c₀]) rest').Sublist rest' :=
            eliminate_options_sublist c₀ (chosen ++ [c₀]) rest'
          have hsubset : ((chosen ++ [c₀]) ++ eliminate_options c₀ (chosen ++ [c₀]) rest')
              ⊆ chosen ++ c₀ :: rest' := by
            intro x hx
            rcases List.mem_append.mp hx with hx | hx
            · rcases List.mem_append.mp hx with hx | hx
              · exact List.mem_append.mpr (Or.inl hx)
              · rcases List.mem_singleton.mp hx with rfl
                exact List.mem_append.mpr (Or.inr (List.mem_cons_self _ _))
            · exact List.mem_append.mpr (Or.inr (List.mem_cons_of_mem _ (hsub.subset hx)))
          have hc₀mem : c₀ ∈ chosen ++ c₀ :: rest' :=
            List.mem_append.mpr (Or.inr (List.mem_cons_self _ _))
          have hhom' : mcHomogeneous ((chosen ++ [c₀])
              ++ eliminate_options c₀ (chosen ++ [c₀]) rest') = true :=
            mcHomogeneous_mono hsubset hhom
          have hinv' : SelInv (chosen ++ [c₀])
              (eliminate_options c₀ (chosen ++ [c₀]) rest') := by
            intro c₁ hc₁ j s₁ k₁ hs₁ hk₁ hk₁1
            have hc₁old : c₁ ∈ chosen ++ c₀ :: rest' := hsubset hc₁
            have hold := hinv c₁ hc₁old j s₁ k₁ hs₁ hk₁ hk₁1
            by_cases h₀ : equal_except_nth_place c₁ c₀ j = true
            · have hcount' : (chosen ++ [c₀]).countP
                  (fun r => equal_except_nth_place c₁ r j)
                  = chosen.countP (fun r => equal_except_nth_place c₁ r j) + 1 := by
                rw [List.countP_append]
                simp [List.countP_cons, h₀]
              have hrest_pos : 0 < (c₀ :: rest').countP
                  (fun r => equal_except_nth_place c₁ r j) := by
                rw [List.countP_cons]
                simp [h₀]
              have hlt : chosen.countP (fun r => equal_except_nth_place c₁ r j)
                  < k₁ := by
                rcases Nat.lt_or_ge (chosen.countP
                    (fun r => equal_except_nth_place c₁ r j)) k₁ with h | h
                · exact h
                · have heqk : chosen.countP
                      (fun r => equal_except_nth_place c₁ r j) = k₁ :=
                    Nat.le_antisymm hold.1 h
                  have h0 := hold.2 heqk
                  omega
              refine ⟨by omega, ?_⟩
              intro heqk'
              have hlenEq : c₁.length = c₀.length := eqex_length h₀
              have hj : j < c₀.length := by
                have := (List.getElem?_eq_some.mp hs₁).1
                omega
              have hs₀ : c₀[j]? = some c₀[j] := List.getElem?_eq_getElem hj
              have hmc₀ : (c₀[j]).max_count = some k₁ := by
                have hmceq := mcHomogeneous_spec hhom hc₁old hc₀mem h₀ hs₁ hs₀
                rw [← hmceq]
                exact hk₁
              have hcong : ∀ r, equal_except_nth_place c₀ r j
                  = equal_except_nth_place c₁ r j := eqex_congr h₀
              have hkill : ∀ x ∈ eliminate_options c₀ (chosen ++ [c₀]) rest',
                  equal_except_nth_place c₀ x j = false := by
                apply elimGo_kill c₀ (chosen ++ [c₀]) j c₀[j] k₁ hmc₀ ?_
                    c₀.enum rest'
                · exact List.mem_enum_iff_getElem?.mpr hs₀
                · refine Or.inr ?_
                  have hcnt : (chosen ++ [c₀]).countP
                      (fun x => equal_except_nth_place c₀ x j)
                      = (chosen ++ [c₀]).countP
                        (fun x => equal_except_nth_place c₁ x j) :=
                    List.countP_congr (fun x _ => by rw [hcong x])
                  rw [hcnt, heqk']
              rw [List.countP_eq_zero]
              intro a ha
              have hfa := hkill a ha
              rw [hcong a] at hfa
              simp [hfa]
            · have h₀f : equal_except_nth_place c₁ c₀ j = false := by
                revert h₀; cases equal_except_nth_place c₁ c₀ j <;> simp
              have hcount' : (chosen ++ [c₀]).countP
                  (fun r => equal_except_nth_place c₁ r j)
                  = chosen.countP (fun r => equal_except_nth_place c₁ r j) := by
                rw [List.countP_append]
                simp [List.countP_cons, h₀f]
              refine ⟨hcount' ▸ hold.1, ?_⟩
              intro heqk'
              have heqk : chosen.countP
                  (fun r => equal_except_nth_place c₁ r j) = k₁ := by
                rw [← hcount']
                exact heqk'
              have h0 := hold.2 heqk
              rw [List.countP_cons] at h0
              have hr0 : rest'.countP (fun r => equal_except_nth_place c₁ r j) = 0 := by
                omega
              have := List.Sublist.countP_le
                (fun r => equal_except_nth_place c₁ r j) hsub
              omega
          have hlen' : (eliminate_options c₀ (chosen ++ [c₀]) rest').length ≤ fuel := by
            have h1 := hsub.length_le
            have h2 : (c₀ :: rest').length ≤ fuel + 1 := hlen
            simp only [List.length_cons] at h2
            omega
          rw [hstep] at hc ⊢
          exact ih (chosen ++ [c₀]) _ hlen' hhom' hinv' cd hc i s k hs hk hk1

/-- C2 counterexample: with heterogeneous max_count values at a comparable
slot, select keeps three pairwise comparable candidates although one of them
caps that slot at 1.  The claim as stated, quantified over every input list,
is therefore false. -/
theorem C2_counterexample :
    ([⟨"c", some 1, 0⟩] : Cand) ∈
      select [[⟨"a", none, 0⟩], [⟨"b", none, 0⟩], [⟨"c", some 1, 0⟩]] ∧
    ([⟨"c", some 1, 0⟩] : Cand)[0]? = some ⟨"c", some 1, 0⟩ ∧
    (select [[⟨"a", none, 0⟩], [⟨"b", none, 0⟩], [⟨"c", some 1, 0⟩]]).countP
      (fun r => equal_except_nth_place [⟨"c", some 1, 0⟩] r 0) = 3 ∧
    ¬ ((select [[⟨"a", none, 0⟩], [⟨"b", none, 0⟩], [⟨"c", some 1, 0⟩]]).countP
      (fun r => equal_except_nth_place [⟨"c", some 1, 0⟩] r 0) ≤ 1) := by
  decide

/-- C2 (amended): for every input list in which comparable candidates carry
the same max_count at the compared slot, and every slot whose max_count is
k with 1 ≤ k, the output of select contains at most k candidates comparable
to a given output candidate at that slot (equal except at that slot). -/
theorem C2_select_cap (cands : List Cand) (hhom : mcHomogeneous cands = true)
    (cd : Cand) (hc : cd ∈ select cands) (i : Nat) (s : Suggestion) (k : Nat)
    (hs : cd[i]? = some s) (hk : s.max_count = some k) (hk1 : 1 ≤ k) :
    (select cands).countP (fun r => equal_except_nth_place cd r i) ≤ k := by
  have hinv0 : SelInv [] cands := by
    intro cd₁ hc₁ i₁ s₁ k₁ hs₁ hk₁ hk₁1
    refine ⟨by simp, ?_⟩
    intro h0
    simp only [List.countP_nil] at h0
    omega
  exact selectGo_cap cands.length [] cands (le_refl _) (by simpa using hhom)
    hinv0 cd hc i s k hs hk hk1

/-- Witness for C2: two single-slot candidates from the same template with
cap 1 each; select keeps only the first and the cap is respected. -/
theorem C2_select_cap_witness :
    (select [[⟨"a", some 1, 0⟩], [⟨"b", some 1, 0⟩]]).countP
      (fun r => equal_except_nth_place [⟨"a", some 1, 0⟩] r 0) ≤ 1 :=
  C2_select_cap [[⟨"a", some 1, 0⟩], [⟨"b", some 1, 0⟩]] (by decide)
    [⟨"a", some 1, 0⟩] (by decide) 0 ⟨"a", some 1, 0⟩ 1 (by decide) rfl
    (by decide)

theorem elimGo_eq_self (elem : Cand) (chosen : List Cand) :
    ∀ (ps : List (Nat × Suggestion)) (rest : List Cand),
      (∀ p ∈ ps, ∀ mc : Nat, (p.2 : Suggestion).max_count = some mc →
        (mc = 1 ∨ mc ≤ chosen.countP
          (fun x => equal_except_nth_place elem x p.1)) →
        ∀ x ∈ rest, equal_except_nth_place elem x p.1 = false) →
      elimGo elem chosen ps rest = rest := by
  intro ps
  induction ps with
  | nil => intro rest _; rfl
  | cons p more ih =>
      intro rest h
      obtain ⟨i, item⟩ := p
      have hstep : elimStep elem chosen i item rest = rest := by
        cases hmc : item.max_count with
        | none => unfold elimStep; rw [hmc]
        | some mc =>
            by_cases hkill : mc = 1 ∨ mc ≤ chosen.countP
                (fun x => equal_except_nth_place elem x i)
            · rw [elimStep_kill elem chosen i item rest mc hmc hkill]
              apply List.filter_eq_self.mpr
              intro a ha
              have hfa := h (i, item) (List.mem_cons_self _ _) mc hmc hkill a ha
              simp [hfa]
            · have h1 : mc ≠ 1 := fun hh => hkill (Or.inl hh)
              have h2 : ¬ mc ≤ chosen.countP
                  (fun x => equal_except_nth_place elem x i) :=
                fun hh => hkill (Or.inr hh)
              have h1b : (mc == 1) = false := by simp [h1]
              unfold elimStep
              rw [hmc]
              simp only [h1b, Bool.false_eq_true, if_false, if_neg h2]
      show elimGo elem chosen more (elimStep elem chosen i item rest) = rest
      rw [hstep]
      exact ih rest (fun p hp => h p (List.mem_cons_of_mem _ hp))

theorem split_snoc {α : Type} :
    ∀ (c₁ l : List α) (a c : α) (c₂ : List α),
      l ++ [a] = c₁ ++ c :: c₂ →
      (∃ c₂', l = c₁ ++ c :: c₂' ∧ c₂ = c₂' ++ [a]) ∨
      (c₁ = l ∧ c = a ∧ c₂ = []) := by
  intro c₁
  induction c₁ with
  | nil =>
      intro l a c c₂ h
      cases l with
      | nil =>
          simp only [List.nil_append, List.cons.injEq] at h
          exact Or.inr ⟨rfl, h.1.symm, h.2.symm⟩
      | cons x l' =>
          simp only [List.cons_append, List.nil_append, List.cons.injEq] at h
          exact Or.inl ⟨l', by simp [h.1], h.2.symm⟩
  | cons y c₁' ih =>
      intro l a c c₂ h
      cases l with
      | nil =>
          exfalso
          have hlen := congrArg List.length h
          simp only [List.nil_append, List.length_append, List.length_cons,
            List.length_nil] at hlen
          omega
      | cons x l' =>
          simp only [List.cons_append, List.cons.injEq] at h
          obtain ⟨rfl, h2⟩ := h
          rcases ih l' a c c₂ h2 with ⟨c₂', hl, hc₂⟩ | ⟨h1, h2', h3⟩
          · exact Or.inl ⟨c₂', by simp [hl], hc₂⟩
          · exact Or.inr ⟨by simp [h1], h2', h3⟩

theorem selectGo_pastNoKill :
    ∀ (fuel : Nat) (chosen rest : List Cand), rest.length ≤ fuel →
      PastNoKill chosen rest → PastNoKill (selectGo fuel chosen rest) [] := by
  intro fuel
  induction fuel with
  | zero =>
      intro chosen rest hlen hp
      have hrest : rest = [] := List.length_eq_zero.mp (Nat.le_zero.mp hlen)
      subst hrest
      exact hp
  | succ fuel ih =>
      intro chosen rest hlen hp
      cases rest with
      | nil => exact hp
      | cons c₀ rest' =>
          have hsub : (eliminate_options c₀ (chosen ++ [c₀]) rest').Sublist rest' :=
            eliminate_options_sublist c₀ (chosen ++ [c₀]) rest'
          have hlen' : (eliminate_options c₀ (chosen ++ [c₀]) rest').length ≤ fuel := by
            have h1 := hsub.length_le
            have h2 : (c₀ :: rest').length ≤ fuel + 1 := hlen
            simp only [List.length_cons] at h2
            omega
          apply ih (chosen ++ [c₀]) (eliminate_options c₀ (chosen ++ [c₀]) rest')
            hlen'
          intro c₁ cd c₂ hsplit p hp' mc hmc hkill x hx
          obtain ⟨i, item⟩ := p
          rcases split_snoc c₁ chosen c₀ cd c₂ hsplit with
            ⟨c₂', hl, hc₂⟩ | ⟨h₁, h₂, h₃⟩
          · have hmem : x ∈ c₂' ++ c₀ :: rest' := by
              rw [hc₂] at hx
              rcases List.mem_append.mp hx with hx | hx
              · rcases List.mem_append.mp hx with hx | hx
                · exact List.mem_append.mpr (Or.inl hx)
                · rcases List.mem_singleton.mp hx with rfl
                  exact List.mem_append.mpr (Or.inr (List.mem_cons_self _ _))
              · exact List.mem_append.mpr
                  (Or.inr (List.mem_cons_of_mem _ (hsub.subset hx)))
            exact hp c₁ cd c₂' hl (i, item) hp' mc hmc hkill x hmem
          · rw [h₂]
            rw [h₁, h₂] at hkill
            rw [h₂] at hp'
            rw [h₃] at hx
            have hx' : x ∈ eliminate_options c₀ (chosen ++ [c₀]) rest' := by
              simpa using hx
            exact elimGo_kill c₀ (chosen ++ [c₀]) i item mc hmc hkill
              c₀.enum rest' hp' x hx'

theorem selectGo_id :
    ∀ (fuel : Nat) (ch r : List Cand), r.length ≤ fuel →
      (∀ (r₁ : List Cand) (cd : Cand) (r₂ : List Cand), r = r₁ ++ cd :: r₂ →
        ∀ p ∈ cd.enum, ∀ mc : Nat, (p.2 : Suggestion).max_count = some mc →
          (mc = 1 ∨ mc ≤ (ch ++ r₁ ++ [cd]).countP
            (fun x => equal_except_nth_place cd x p.1)) →
          ∀ x ∈ r₂, equal_except_nth_place cd x p.1 = false) →
      selectGo fuel ch r = ch ++ r := by
  intro fuel
  induction fuel with
  | zero =>
      intro ch r hlen h
      have hr : r = [] := List.length_eq_zero.mp (Nat.le_zero.mp hlen)
      subst hr
      simp [selectGo]
  | succ fuel ih =>
      intro ch r hlen h
      cases r with
      | nil => simp [selectGo]
      | cons c₀ r' =>
          have helim : eliminate_options c₀ (ch ++ [c₀]) r' = r' := by
            apply elimGo_eq_self
            intro p hp mc hmc hkill x hx
            apply h [] c₀ r' rfl p hp mc hmc ?_ x hx
            simpa using hkill
          have hlen' : r'.length ≤ fuel := by
            have h2 : (c₀ :: r').length ≤ fuel + 1 := hlen
            simp only [List.length_cons] at h2
            omega
          have hrec : selectGo fuel (ch ++ [c₀]) r' = (ch ++ [c₀]) ++ r' := by
            apply ih (ch ++ [c₀]) r' hlen'
            intro r₁ cd r₂ hr p hp mc hmc hkill x hx
            have hsplit : c₀ :: r' = (c₀ :: r₁) ++ cd :: r₂ := by
              rw [hr]
              rfl
            have hl : (ch ++ [c₀]) ++ r₁ ++ [cd] = ch ++ (c₀ :: r₁) ++ [cd] := by
              simp
            rw [hl] at hkill
            exact h (c₀ :: r₁) cd r₂ hsplit p hp mc hmc hkill x hx
          show selectGo fuel (ch ++ [c₀]) (eliminate_options c₀ (ch ++ [c₀]) r')
              = ch ++ c₀ :: r'
          rw [helim, hrec]
          simp

/-- C7: the greedy max-count selection is idempotent: applying select to the
output of select returns that output unchanged (the output of select is a
fixed point of select). -/
theorem C7_select_idempotent (cands : List Cand) :
    select (select cands) = select cands := by
  have hpast : PastNoKill (select cands) [] := by
    apply selectGo_pastNoKill cands.length [] cands (le_refl _)
    intro c₁ cd c₂ hsplit
    exact absurd hsplit (by simp)
  have hid : selectGo (select cands).length [] (select cands)
      = [] ++ select cands := by
    apply selectGo_id (select cands).length [] (select cands) (le_refl _)
    intro r₁ cd r₂ hr p hp mc hmc hkill x hx
    have hkill' : mc = 1 ∨ mc ≤ (r₁ ++ [cd]).countP
        (fun x => equal_except_nth_place cd x p.1) := by
      simpa using hkill
    have := hpast r₁ cd r₂ hr p hp mc hmc hkill' x (by simp [hx])
    exact this
  simpa [select] using hid

/-- Witness for C6: a template whose second slot is empty contributes nothing
while neighbouring templates are unaffected. -/
theorem C6_witness :
    (process_suggestions [["a"], []] 1000).1 = [] ∧
    processTemplates ([[["x"]]] ++ [["a"], []] :: [[["y"]]]) 1000
      = processTemplates [[["x"]]] 1000 ++ processTemplates [[["y"]]] 1000 :=
  C6_empty_slot_only_that_template [[["x"]]] [[["y"]]] [["a"], []] 1000 (by decide)


/-- C3: for every matched span and pattern such that the span length equals
the pattern length and no pattern slot carries an OP key, RefMatcher returns
the identity mapping i to [i] for every slot index i. -/
theorem C3_align_identity (spanLen : Nat) (orig_pattern : List RSlot)
    (max_matches : List Nat) (matchesFor : Nat → List (Nat × Nat × Nat))
    (hlen : spanLen = orig_pattern.length)
    (hop : ∀ p ∈ orig_pattern, p.op = none) :
    refCall spanLen orig_pattern max_matches matchesFor
      = (List.range orig_pattern.length).map (fun k => (k, [k])) := by
  unfold refCall
  have hcond : spanLen
      = (orig_pattern.map (fun p => { p with hasTemplateId := false })).length ∧
      (orig_pattern.map (fun p => { p with hasTemplateId := false })).all
        (fun p => !p.op.isSome) = true := by
    constructor
    · rw [List.length_map]; exact hlen
    · rw [List.all_eq_true]
      intro p hp
      obtain ⟨q, hq, rfl⟩ := List.mem_map.mp hp
      simp [hop q hq]
  rw [if_pos hcond, List.length_map]

/-- Witness for C3: a two-slot pattern without arity operators aligns a
two-token span identically. -/
theorem C3_witness :
    refCall 2 [⟨none, false, true⟩, ⟨none, true, true⟩] [] (fun _ => [])
      = (List.range 2).map (fun k => (k, [k])) :=
  C3_align_identity 2 [⟨none, false, true⟩, ⟨none, true, true⟩] [] (fun _ => [])
    (by decide) (by decide)

theorem RefDisjoint_identity (n : Nat) :
    RefDisjoint ((List.range n).map (fun k => (k, [k]))) := by
  rw [RefDisjoint, List.pairwise_map]
  apply List.Pairwise.imp ?_ (List.pairwise_lt_range n)
  intro a b hab
  refine ⟨Nat.ne_of_lt hab, ?_⟩
  intro x hx
  simp only [List.mem_singleton] at hx ⊢
  omega

theorem RefDisjoint_insert {d : List (Nat × List Nat)} (h : RefDisjoint d)
    (idx : Nat) : RefDisjoint (insert_empty_idx d idx) := by
  rw [RefDisjoint, insert_empty_idx, List.pairwise_append]
  refine ⟨?_, List.pairwise_singleton _ _, ?_⟩
  · rw [List.pairwise_map]
    apply List.Pairwise.imp ?_ h
    intro a b hab
    obtain ⟨hk, hv⟩ := hab
    constructor
    · by_cases ha : a.1 ≥ idx <;> by_cases hb : b.1 ≥ idx
      · rw [if_pos ha, if_pos hb]
        show a.1 + 1 ≠ b.1 + 1
        omega
      · rw [if_pos ha, if_neg hb]
        show a.1 + 1 ≠ b.1
        omega
      · rw [if_neg ha, if_pos hb]
        show a.1 ≠ b.1 + 1
        omega
      · rw [if_neg ha, if_neg hb]
        exact hk
    · by_cases ha : a.1 ≥ idx <;> by_cases hb : b.1 ≥ idx
      · rw [if_pos ha, if_pos hb]
        exact hv
      · rw [if_pos ha, if_neg hb]
        exact hv
      · rw [if_neg ha, if_pos hb]
        exact hv
      · rw [if_neg ha, if_neg hb]
        exact hv
  · intro a ha b hb
    rcases List.mem_singleton.mp hb with rfl
    constructor
    · obtain ⟨a', ha', rfl⟩ := List.mem_map.mp ha
      by_cases h' : a'.1 ≥ idx <;> simp [h'] <;> omega
    · intro x hx
      simp

theorem RefDisjoint_shift {d : List (Nat × List Nat)} (h : RefDisjoint d)
    (skipped : List Nat) : RefDisjoint (shift_pattern_ref d skipped) := by
  induction skipped generalizing d with
  | nil => exact h
  | cons i rest ih => exact ih (RefDisjoint_insert h i)

theorem RefDisjoint_dictAppend {d : List (Nat × List Nat)} {n : Nat}
    (hd : RefDisjoint d) (hb : RefBound d n) (k : Nat) :
    RefDisjoint (dictAppend d k n) := by
  rw [dictAppend]
  by_cases hany : d.any (fun pv => pv.1 == k) = true
  · rw [if_pos hany, RefDisjoint, List.pairwise_map]
    apply List.Pairwise.imp_of_mem ?_ hd
    intro a b ha' hb' hab
    obtain ⟨hk, hv⟩ := hab
    by_cases h1 : (a.1 == k) = true <;> by_cases h2 : (b.1 == k) = true
    · exact absurd ((beq_iff_eq.mp h1).trans (beq_iff_eq.mp h2).symm) hk
    · rw [if_pos h1, if_neg h2]
      refine ⟨hk, ?_⟩
      intro x hx
      rcases List.mem_append.mp hx with hx | hx
      · exact hv x hx
      · rcases List.mem_singleton.mp hx with rfl
        intro hmem
        exact absurd (hb b hb' x hmem) (by omega)
    · rw [if_neg h1, if_pos h2]
      refine ⟨hk, ?_⟩
      intro x hx hmem
      rcases List.mem_append.mp hmem with hm | hm
      · exact hv x hx hm
      · rcases List.mem_singleton.mp hm with rfl
        exact absurd (hb a ha' x hx) (by omega)
    · rw [if_neg h1, if_neg h2]
      exact ⟨hk, hv⟩
  · rw [if_neg hany, RefDisjoint, List.pairwise_append]
    refine ⟨hd, List.pairwise_singleton _ _, ?_⟩
    intro a ha b hbb
    rcases List.mem_singleton.mp hbb with rfl
    constructor
    · intro heq
      apply hany
      rw [List.any_eq_true]
      exact ⟨a, ha, by simp [heq]⟩
    · intro x hx hmem
      rcases List.mem_singleton.mp hmem with rfl
      exact absurd (hb a ha x hx) (lt_irrefl x)

theorem RefBound_dictAppend {d : List (Nat × List Nat)} {n : Nat}
    (hb : RefBound d n) (k : Nat) :
    RefBound (dictAppend d k n) (n + 1) := by
  rw [dictAppend]
  by_cases hany : d.any (fun pv => pv.1 == k) = true
  · rw [if_pos hany]
    intro pv hpv x hx
    obtain ⟨pv', hpv', hmap⟩ := List.mem_map.mp hpv
    by_cases h1 : (pv'.1 == k) = true
    · rw [if_pos h1] at hmap
      rw [← hmap] at hx
      rcases List.mem_append.mp hx with hx | hx
      · exact Nat.lt_succ_of_lt (hb pv' hpv' x hx)
      · rcases List.mem_singleton.mp hx with rfl
        omega
    · rw [if_neg h1] at hmap
      rw [← hmap] at hx
      exact Nat.lt_succ_of_lt (hb pv' hpv' x hx)
  · rw [if_neg hany]
    intro pv hpv x hx
    rcases List.mem_append.mp hpv with hpv | hpv
    · exact Nat.lt_succ_of_lt (hb pv hpv x hx)
    · rcases List.mem_singleton.mp hpv with rfl
      rcases List.mem_singleton.mp hx with rfl
      omega

theorem caseIII_ref_invariant (matchesFor : Nat → List (Nat × Nat × Nat)) :
    ∀ spanLen : Nat, RefDisjoint (caseIII_ref spanLen matchesFor) ∧
      RefBound (caseIII_ref spanLen matchesFor) spanLen := by
  intro spanLen
  induction spanLen with
  | zero =>
      refine ⟨List.Pairwise.nil, ?_⟩
      intro pv hpv
      cases hpv
  | succ m ih =>
      have hstep : caseIII_ref (m + 1) matchesFor
          = (match pyMaxBy (fun mm => mm.2.2 - mm.2.1) (matchesFor m) with
             | none => caseIII_ref m matchesFor
             | some mm => dictAppend (caseIII_ref m matchesFor) mm.1 m) := by
        show (List.range (m + 1)).foldl _ [] = _
        rw [List.range_succ, List.foldl_append]
        rfl
      rw [hstep]
      cases hpm : pyMaxBy (fun mm => mm.2.2 - mm.2.1) (matchesFor m) with
      | none =>
          refine ⟨ih.1, ?_⟩
          intro pv hpv x hx
          exact Nat.lt_succ_of_lt (ih.2 pv hpv x hx)
      | some mm =>
          exact ⟨RefDisjoint_dictAppend ih.1 ih.2 mm.1,
            RefBound_dictAppend ih.2 mm.1⟩

/-- C8 (amended): for every span, pattern and matcher behaviour, the mapping
returned by RefMatcher assigns pairwise disjoint span-token index lists to
distinct pattern slots (and a skipped arity slot maps to the empty list);
the cross-slot monotonicity of the original claim is dropped, as it depends
on the external matchers tie-breaking and fails (see the counterexample). -/
theorem C8_refCall_disjoint (spanLen : Nat) (orig_pattern : List RSlot)
    (max_matches : List Nat) (matchesFor : Nat → List (Nat × Nat × Nat)) :
    RefDisjoint (refCall spanLen orig_pattern max_matches matchesFor) := by
  unfold refCall
  by_cases h1 : spanLen
      = (orig_pattern.map (fun p => { p with hasTemplateId := false })).length ∧
      ((orig_pattern.map (fun p => { p with hasTemplateId := false })).all
        (fun p => !p.op.isSome)) = true
  · rw [if_pos h1]
    exact RefDisjoint_identity _
  · rw [if_neg h1]
    by_cases h2 : spanLen = (remove_skipped_ops
        (orig_pattern.map (fun p => { p with hasTemplateId := false }))
          max_matches).1.length ∧
        ((remove_skipped_ops
          (orig_pattern.map (fun p => { p with hasTemplateId := false }))
            max_matches).1.all (fun p => !p.is_multitoken)) = true
    · rw [if_pos h2]
      exact RefDisjoint_shift (RefDisjoint_identity _) _
    · rw [if_neg h2]
      exact RefDisjoint_shift (caseIII_ref_invariant matchesFor spanLen).1 _

/-- C8 counterexample: for the pattern [a, (a or b)*] against the span
a b a a, with the realizable matcher behaviour of cexMatches, the aligner
returns slot 0 mapped to [0, 2] and slot 1 mapped to [1, 3]: span index 2
sits in slot 0 while the smaller index 1 sits in the later slot 1, so the
token indices do not increase monotonically with slot order. -/
theorem C8_counterexample :
    refCall 4 [⟨none, false, true⟩, ⟨some "*", false, true⟩] [1]
      cexMatches = [(0, [0, 2]), (1, [1, 3])] ∧
    ¬ (∀ pv ∈ refCall 4 [⟨none, false, true⟩, ⟨some "*", false, true⟩]
          [1] cexMatches,
       ∀ qw ∈ refCall 4 [⟨none, false, true⟩, ⟨some "*", false, true⟩]
          [1] cexMatches,
       pv.1 < qw.1 → ∀ x ∈ pv.2, ∀ y ∈ qw.2, x < y) := by
  decide

/-- C4: evaluation at the failing input: mapping {1: [0]}, PATTERN_REF -1,
start 0, end 2 over the three-token document a b c.  The lookup of the
rebound index 0 fails, the warning fires, and the fallback reads
doc[end + (len(mapping) + k)] = doc[2] = c, not doc[end + k] = doc[1] = b as
the claim (and the codes own inline comment about adding ref and end)
prescribes: the except branch runs after ref has already been rebound. -/
theorem C4_negative_fallback_bug :
    get_options ⟨none, some (-1), none, none, none, none⟩
      (fun i => if i = 0 then "a" else if i = 1 then "b" else "c")
      (fun _ _ => "") (fun t => t) 0 2 [(1, [0])]
      = (["c"], true) ∧
    (fun i : Int => if i = 0 then "a" else if i = 1 then "b" else "c")
      ((2 : Int) + (-1)) = "b" ∧
    ("c" : String) ≠ "b" := by
  decide

/-- C9 counterexample: a candidate whose preprocessed text has fewer than 2
words scores bottom and sorts FIRST (best) under the ascending
lower-is-better order of sort_suggestions, not last (worst) as the claim
states. -/
theorem C9_counterexample :
    kenlm_call (fun _ => (5 : ℚ)) (fun t => t) "aa" = (⊥, true) ∧
    sort_suggestions
      (fun s => (kenlm_call (fun _ => (5 : ℚ)) (fun t => t) s).1)
      ["bb cc", "aa"] = ["aa", "bb cc"] ∧
    (["aa", "bb cc"] : List String) ≠ ["bb cc", "aa"] := by
  decide

/-- C9 (amended): for every scoring input whose preprocessed text has fewer
than 2 words, the scorer warns and returns the bottom score, the model of
float(-inf); that score is minimal for the ascending lower-is-better order
used by sort_suggestions, so such a candidate sorts to the front (treated
as best), not last. -/
theorem C9_short_scores_bottom (finiteScore : String → ℚ)
    (preprocess : String → String) (segment : String)
    (hshort : (pyWords (preprocess segment)).length < 2) :
    kenlm_call finiteScore preprocess segment = (⊥, true) ∧
    ∀ y : WithBot ℚ, (kenlm_call finiteScore preprocess segment).1 ≤ y := by
  have h : kenlm_call finiteScore preprocess segment = (⊥, true) := by
    unfold kenlm_call
    rw [if_pos hshort]
  refine ⟨h, ?_⟩
  rw [h]
  exact fun y => bot_le

/-- Witness for C9: a one-word segment. -/
theorem C9_witness :
    kenlm_call (fun _ => (0 : ℚ)) (fun t => t) "hi" = (⊥, true) ∧
    ∀ y : WithBot ℚ, (kenlm_call (fun _ => (0 : ℚ)) (fun t => t) "hi").1 ≤ y :=
  C9_short_scores_bottom (fun _ => (0 : ℚ)) (fun t => t) "hi" (by decide)

theorem filter_0distance_append (a b : List ESpan) :
    filter_0distance (a ++ b)
      = filter_0distance a ++ filter_0distance b := by
  induction a with
  | nil => rfl
  | cons s rest ih =>
      simp only [List.cons_append, filter_0distance]
      split_ifs <;> simp [ih]

theorem filter_0distance_cons_empty (s : ESpan) (rest : List ESpan)
    (h : s.suggestions = []) :
    filter_0distance (s :: rest) = s :: filter_0distance rest := by
  show (if s.suggestions.length ≠ 0 then
      (let sugg := s.suggestions.filter (fun x => !(s.spanText == x))
       if sugg.length ≠ 0 then
        { s with suggestions := sugg } :: filter_0distance rest
       else filter_0distance rest)
    else s :: filter_0distance rest) = s :: filter_0distance rest
  rw [if_neg (by simp [h])]

theorem filter_0distance_cons_dropped (s : ESpan) (rest : List ESpan)
    (h : s.suggestions ≠ [])
    (hf : s.suggestions.filter (fun x => !(s.spanText == x)) = []) :
    filter_0distance (s :: rest) = filter_0distance rest := by
  show (if s.suggestions.length ≠ 0 then
      (let sugg := s.suggestions.filter (fun x => !(s.spanText == x))
       if sugg.length ≠ 0 then
        { s with suggestions := sugg } :: filter_0distance rest
       else filter_0distance rest)
    else s :: filter_0distance rest) = filter_0distance rest
  rw [if_pos (fun hh => h (List.length_eq_zero.mp hh))]
  show (if (s.suggestions.filter (fun x => !(s.spanText == x))).length ≠ 0
      then { s with suggestions :=
          s.suggestions.filter (fun x => !(s.spanText == x)) }
        :: filter_0distance rest
      else filter_0distance rest)
    = filter_0distance rest
  rw [if_neg (by simp [hf])]

theorem filter_0distance_cons_kept (s : ESpan) (rest : List ESpan)
    (h : s.suggestions ≠ [])
    (hf : s.suggestions.filter (fun x => !(s.spanText == x)) ≠ []) :
    filter_0distance (s :: rest)
      = { s with suggestions :=
          s.suggestions.filter (fun x => !(s.spanText == x)) } :: filter_0distance rest := by
  show (if s.suggestions.length ≠ 0 then
      (let sugg := s.suggestions.filter (fun x => !(s.spanText == x))
       if sugg.length ≠ 0 then
        { s with suggestions := sugg } :: filter_0distance rest
       else filter_0distance rest)
    else s :: filter_0distance rest)
    = { s with suggestions :=
        s.suggestions.filter (fun x => !(s.spanText == x)) } :: filter_0distance rest
  rw [if_pos (fun hh => h (List.length_eq_zero.mp hh))]
  show (if (s.suggestions.filter (fun x => !(s.spanText == x))).length ≠ 0
      then { s with suggestions :=
          s.suggestions.filter (fun x => !(s.spanText == x)) } :: filter_0distance rest
      else filter_0distance rest)
    = { s with suggestions :=
        s.suggestions.filter (fun x => !(s.spanText == x)) } :: filter_0distance rest
  rw [if_pos (fun hh => hf (List.length_eq_zero.mp hh))]

theorem filter_0distance_no_equal (l : List ESpan) :
    ∀ t ∈ filter_0distance l, ∀ x ∈ t.suggestions,
      ¬ ((t.spanText == x) = true) := by
  induction l with
  | nil => intro t ht; cases ht
  | cons s rest ih =>
      intro t ht x hx
      by_cases h1 : s.suggestions = []
      · rw [filter_0distance_cons_empty s rest h1] at ht
        rcases List.mem_cons.mp ht with rfl | ht
        · rw [h1] at hx
          cases hx
        · exact ih t ht x hx
      · by_cases h2 : s.suggestions.filter (fun x => !(s.spanText == x)) = []
        · rw [filter_0distance_cons_dropped s rest h1 h2] at ht
          exact ih t ht x hx
        · rw [filter_0distance_cons_kept s rest h1 h2] at ht
          rcases List.mem_cons.mp ht with rfl | ht
          · intro hcon
            have hmem := (List.mem_filter.mp hx).2
            simp [hcon] at hmem
          · exact ih t ht x hx

/-- C10: the zero-distance filter removes from each spans suggestion list
every string equal to the spans own text, drops a span whose non-empty list
thereby becomes empty, passes a span whose list was already empty through
unchanged with the other spans unaffected, and no surviving span keeps a
suggestion equal to its own text. -/
theorem C10_filter_0distance_spec (pre post : List ESpan) (s : ESpan) :
    (s.suggestions = [] →
      filter_0distance (pre ++ s :: post)
        = filter_0distance pre ++ s :: filter_0distance post) ∧
    (s.suggestions ≠ [] →
      ((s.suggestions.filter (fun x => !(s.spanText == x))) = [] →
        filter_0distance (pre ++ s :: post)
          = filter_0distance pre ++ filter_0distance post) ∧
      ((s.suggestions.filter (fun x => !(s.spanText == x))) ≠ [] →
        filter_0distance (pre ++ s :: post)
          = filter_0distance pre
            ++ ({ s with suggestions :=
                s.suggestions.filter (fun x => !(s.spanText == x)) }
              :: filter_0distance post))) ∧
    (∀ t ∈ filter_0distance (pre ++ s :: post), ∀ x ∈ t.suggestions,
      ¬ ((t.spanText == x) = true)) := by
  refine ⟨?_, fun hne => ⟨?_, ?_⟩, filter_0distance_no_equal _⟩
  · intro hnil
    rw [filter_0distance_append, filter_0distance_cons_empty s post hnil]
  · intro hfnil
    rw [filter_0distance_append, filter_0distance_cons_dropped s post hne hfnil]
  · intro hfne
    rw [filter_0distance_append, filter_0distance_cons_kept s post hne hfne]

/-- Witness for C10: a span whose only suggestion equals its own text is
dropped, a span with empty suggestions passes through. -/
theorem C10_witness :
    filter_0distance ([⟨"x", []⟩] ++ ⟨"a b", ["a b"]⟩ :: [⟨"y", ["z"]⟩])
      = filter_0distance [⟨"x", []⟩] ++ filter_0distance [⟨"y", ["z"]⟩] :=
  ((C10_filter_0distance_spec [⟨"x", []⟩] [⟨"y", ["z"]⟩]
    ⟨"a b", ["a b"]⟩).2.1 (by decide)).1 (by decide)

theorem foldl_max_le_aux :
    ∀ (rest : List Nat) (acc : Nat),
      acc ≤ rest.foldl Nat.max acc ∧ ∀ x ∈ rest, x ≤ rest.foldl Nat.max acc := by
  intro rest
  induction rest with
  | nil =>
      intro acc
      exact ⟨le_refl _, fun x hx => absurd hx (List.not_mem_nil x)⟩
  | cons b rest ih =>
      intro acc
      have h := ih (Nat.max acc b)
      refine ⟨le_trans (Nat.le_max_left acc b) h.1, ?_⟩
      intro x hx
      rcases List.mem_cons.mp hx with rfl | hx
      · exact le_trans (Nat.le_max_right acc x) h.1
      · exact h.2 x hx

theorem le_pyMaxNat (l : List Nat) : ∀ x ∈ l, x ≤ pyMaxNat l := by
  cases l with
  | nil => intro x hx; cases hx
  | cons a rest =>
      intro x hx
      rcases List.mem_cons.mp hx with rfl | hx
      · exact (foldl_max_le_aux rest x).1
      · exact (foldl_max_le_aux rest a).2 x hx

theorem sharedLemmaLoop_of_mem (getLemmas : String → List String) (w : String) :
    ∀ (opts acc : List String), w ∈ acc → (∃ o ∈ opts, w ∈ getLemmas o) →
      sharedLemmaLoop getLemmas acc opts = true := by
  intro opts
  induction opts with
  | nil =>
      intro acc _ hex
      obtain ⟨o, ho, -⟩ := hex
      cases ho
  | cons o rest ih =>
      intro acc hw hex
      obtain ⟨o', ho', hwo'⟩ := hex
      show (if (acc.inter (getLemmas o)).length ≠ 0 then true
          else sharedLemmaLoop getLemmas (acc.union (getLemmas o)) rest) = true
      by_cases hc : (acc.inter (getLemmas o)).length ≠ 0
      · rw [if_pos hc]
      · rw [if_neg hc]
        rcases List.mem_cons.mp ho' with rfl | ho'
        · exfalso
          have hmem : w ∈ acc.inter (getLemmas o') :=
            List.mem_inter_iff.mpr ⟨hw, hwo'⟩
          have hne : acc.inter (getLemmas o') ≠ [] := List.ne_nil_of_mem hmem
          exact hc (fun hlen => hne (List.length_eq_zero.mp hlen))
        · exact ih (acc.union (getLemmas o))
            (List.mem_union_iff.mpr (Or.inl hw)) ⟨o', ho', hwo'⟩

theorem sharedLemmaLoop_of_pair (getLemmas : String → List String) :
    ∀ (opts acc : List String) (i j : Nat) (hi : i < opts.length)
      (hj : j < opts.length), i < j →
      (∃ w, w ∈ getLemmas opts[i] ∧ w ∈ getLemmas opts[j]) →
      sharedLemmaLoop getLemmas acc opts = true := by
  intro opts
  induction opts with
  | nil =>
      intro acc i j hi
      exact absurd hi (by simp)
  | cons o rest ih =>
      intro acc i j hi hj hij hex
      obtain ⟨w, hwi, hwj⟩ := hex
      show (if (acc.inter (getLemmas o)).length ≠ 0 then true
          else sharedLemmaLoop getLemmas (acc.union (getLemmas o)) rest) = true
      by_cases hc : (acc.inter (getLemmas o)).length ≠ 0
      · rw [if_pos hc]
      · rw [if_neg hc]
        cases i with
        | zero =>
            cases j with
            | zero => omega
            | succ j₁ =>
                have hj₁ : j₁ < rest.length := by simpa using hj
                have hwo : w ∈ getLemmas o := by simpa using hwi
                have hwr : w ∈ getLemmas rest[j₁] := by simpa using hwj
                exact sharedLemmaLoop_of_mem getLemmas w rest
                  (acc.union (getLemmas o))
                  (List.mem_union_iff.mpr (Or.inr hwo))
                  ⟨rest[j₁], List.getElem_mem hj₁, hwr⟩
        | succ i₁ =>
            cases j with
            | zero => omega
            | succ j₁ =>
                exact ih (acc.union (getLemmas o)) i₁ j₁ (by simpa using hi)
                  (by simpa using hj) (by omega)
                  ⟨w, by simpa using hwi, by simpa using hwj⟩

theorem get_item_max_count_eq (filter_suggestions : Bool)
    (default_max_count : Option Nat) (getLemmas : String → List String)
    (item : SuggItem) (item_options : List String) :
    get_item_max_count filter_suggestions default_max_count getLemmas item
      item_options
      = (if item.MAX_COUNT.getD 0 ≠ 0 then item.MAX_COUNT.getD 0
         else if !filter_suggestions then
           (match default_max_count with
            | some d => if d ≠ 0 then min d item_options.length
                        else item_options.length
            | none => item_options.length)
         else if item_options.length = 0 then 1
         else if !(item_options.all pyIsAlpha) then 1
         else if pyMaxNat (item_options.map pyWordCount) > 1 then 1
         else if (match item.INFLECTION with
                  | some v => get_inflection_type v ≠ "tag"
                  | none => false : Bool) then 1
         else if 1 < item_options.length ∧
             sharedLemmaLoop getLemmas [] item_options = true then 1
         else if 1 < item_options.length ∧
             (["a", "an", "the"].any
               (fun a => decide (a ∈ item_options))) = true then 1
         else if 1 < item_options.length ∧
             ((["person", "people"].all
                (fun a => decide (a ∈ item_options))) = true ∨
              (["ox", "oxen"].all
                (fun a => decide (a ∈ item_options))) = true) then 1
         else (match default_max_count with
               | some d => if d ≠ 0 then min d item_options.length
                           else item_options.length
               | none => item_options.length)) := rfl

/-- C5 counterexample: an item carrying an explicit MAX_COUNT of 0 does not
get that value back: Python only honours a truthy cap, so the function
falls through to the soft cap, here the option count 1. -/
theorem C5_counterexample :
    get_item_max_count false none (fun _ => [])
      ⟨none, none, none, none, none, some 0⟩ ["x"] = 1 ∧ (1 : Nat) ≠ 0 := by
  decide

/-- C5 (amended): an explicit nonzero MAX_COUNT is returned as is (an
explicit 0 is falsy in Python and ignored, see the counterexample);
otherwise without filtering the soft cap applies: the minimum of a truthy
default cap and the option count, else the option count; with filtering the
returned cap is 1 whenever the option set is empty, contains a
non-alphabetic entry or a multi-word option, the item requests non-tag
inflection, or (with several options) two options share a lemma, the
options include an article a/an/the, or they include both members of an
irregular pair person/people or ox/oxen. -/
theorem C5_max_count_spec (filter_suggestions : Bool)
    (default_max_count : Option Nat) (getLemmas : String → List String)
    (item : SuggItem) (item_options : List String) :
    (∀ mc : Nat, item.MAX_COUNT = some mc → mc ≠ 0 →
      get_item_max_count filter_suggestions default_max_count getLemmas item
        item_options = mc) ∧
    ((item.MAX_COUNT = none ∨ item.MAX_COUNT = some 0) →
      filter_suggestions = false →
      get_item_max_count filter_suggestions default_max_count getLemmas item
        item_options
        = (match default_max_count with
           | some d => if d ≠ 0 then min d item_options.length
                       else item_options.length
           | none => item_options.length)) ∧
    ((item.MAX_COUNT = none ∨ item.MAX_COUNT = some 0) →
      filter_suggestions = true →
      (item_options = [] ∨
       (∃ o ∈ item_options, pyIsAlpha o = false) ∨
       (∃ o ∈ item_options, 1 < pyWordCount o) ∨
       (∃ v, item.INFLECTION = some v ∧ get_inflection_type v ≠ "tag") ∨
       (1 < item_options.length ∧
         ((∃ i j : Nat, ∃ hi : i < item_options.length,
             ∃ hj : j < item_options.length, i < j ∧
             ∃ w, w ∈ getLemmas item_options[i] ∧
               w ∈ getLemmas item_options[j]) ∨
          (∃ a ∈ (["a", "an", "the"] : List String), a ∈ item_options) ∨
          ("person" ∈ item_options ∧ "people" ∈ item_options) ∨
          ("ox" ∈ item_options ∧ "oxen" ∈ item_options)))) →
      get_item_max_count filter_suggestions default_max_count getLemmas item
        item_options = 1) := by
  refine ⟨?_, ?_, ?_⟩
  · intro mc hmc hne
    rw [get_item_max_count_eq]
    simp only [hmc, Option.getD_some]
    rw [if_pos hne]
  · intro hmc hfil
    subst hfil
    have h0 : item.MAX_COUNT.getD 0 = 0 := by
      rcases hmc with h | h <;> simp [h]
    rw [get_item_max_count_eq, h0]
    rw [if_neg (by simp), if_pos (by simp)]
  · intro hmc hfil hdisj
    subst hfil
    have h0 : item.MAX_COUNT.getD 0 = 0 := by
      rcases hmc with h | h <;> simp [h]
    rw [get_item_max_count_eq, h0]
    rw [if_neg (by simp), if_neg (by simp)]
    by_cases hA : item_options.length = 0
    · rw [if_pos hA]
    · rw [if_neg hA]
      by_cases hB : (!(item_options.all pyIsAlpha)) = true
      · rw [if_pos hB]
      · rw [if_neg hB]
        by_cases hC : pyMaxNat (item_options.map pyWordCount) > 1
        · rw [if_pos hC]
        · rw [if_neg hC]
          by_cases hD : (match item.INFLECTION with
              | some v => get_inflection_type v ≠ "tag"
              | none => false : Bool) = true
          · rw [if_pos hD]
          · rw [if_neg hD]
            by_cases hE : 1 < item_options.length ∧
                sharedLemmaLoop getLemmas [] item_options = true
            · rw [if_pos hE]
            · rw [if_neg hE]
              by_cases hF : 1 < item_options.length ∧
                  (["a", "an", "the"].any
                    (fun a => decide (a ∈ item_options))) = true
              · rw [if_pos hF]
              · rw [if_neg hF]
                by_cases hG : 1 < item_options.length ∧
                    ((["person", "people"].all
                       (fun a => decide (a ∈ item_options))) = true ∨
                     (["ox", "oxen"].all
                       (fun a => decide (a ∈ item_options))) = true)
                · rw [if_pos hG]
                · exfalso
                  have hall : item_options.all pyIsAlpha = true := by
                    revert hB
                    cases item_options.all pyIsAlpha <;> simp
                  rcases hdisj with h | h | h | h | h
                  · exact hA (by simp [h])
                  · obtain ⟨o, ho, hfa⟩ := h
                    have hoa := List.all_eq_true.mp hall o ho
                    rw [hfa] at hoa
                    cases hoa
                  · obtain ⟨o, ho, hwc⟩ := h
                    have hle := le_pyMaxNat (item_options.map pyWordCount)
                      (pyWordCount o) (List.mem_map.mpr ⟨o, ho, rfl⟩)
                    omega
                  · obtain ⟨v, hv, hvt⟩ := h
                    apply hD
                    rw [hv]
                    simpa using hvt
                  · obtain ⟨hlen, h⟩ := h
                    rcases h with h | h | h | h
                    · obtain ⟨i, j, hi, hj, hij, hw⟩ := h
                      exact hE ⟨hlen,
                        sharedLemmaLoop_of_pair getLemmas item_options [] i j
                          hi hj hij hw⟩
                    · obtain ⟨a, hart, hmem⟩ := h
                      exact hF ⟨hlen, List.any_eq_true.mpr
                        ⟨a, hart, decide_eq_true hmem⟩⟩
                    · apply hG
                      refine ⟨hlen, Or.inl ?_⟩
                      rw [List.all_eq_true]
                      intro a ha
                      rcases List.mem_cons.mp ha with rfl | ha
                      · exact decide_eq_true h.1
                      · rcases List.mem_cons.mp ha with rfl | ha
                        · exact decide_eq_true h.2
                        · cases ha
                    · apply hG
                      refine ⟨hlen, Or.inr ?_⟩
                      rw [List.all_eq_true]
                      intro a ha
                      rcases List.mem_cons.mp ha with rfl | ha
                      · exact decide_eq_true h.1
                      · rcases List.mem_cons.mp ha with rfl | ha
                        · exact decide_eq_true h.2
                        · cases ha

/-- Witness for C5: with filtering enabled and no explicit cap, an article
pair collapses the cap to 1. -/
theorem C5_witness :
    get_item_max_count true none (fun _ => [])
      ⟨none, none, none, none, none, none⟩ ["an", "the"] = 1 :=
  (C5_max_count_spec true none (fun _ => [])
    ⟨none, none, none, none, none, none⟩ ["an", "the"]).2.2
    (Or.inl rfl) rfl
    (Or.inr (Or.inr (Or.inr (Or.inr ⟨by decide,
      Or.inr (Or.inl ⟨"an", by decide, by decide⟩)⟩))))

end Replacy
